import Mathlib

set_option maxRecDepth 8000

/-!
Shallow embedding of the formatting core of `src/main.py`:
`smart_format` (the structural formatter) and `split_text` (the
paginator).  Python strings are modelled as `List Char`; the ASCII
whitespace set models Python's whitespace for `str.strip` and the
regex class `\s`, and `Char.toUpper` models `str.upper` (exact on
ASCII).  Fallible operations (`IndexError` on ragged table rows) are
modelled with `Option`.
-/

abbrev PyStr := List Char

/-- Python whitespace (ASCII part): models `str.strip()` / regex `\s`. -/
def pySpace (c : Char) : Bool :=
  c = ' ' || c = '\t' || c = '\n' || c = '\r' || c = '\x0b' || c = '\x0c'

/-- `str.lstrip()` -/
def lstrip (s : PyStr) : PyStr := s.dropWhile pySpace

/-- `str.rstrip()` -/
def rstrip (s : PyStr) : PyStr := (s.reverse.dropWhile pySpace).reverse

/-- `str.strip()` -/
def strip (s : PyStr) : PyStr := lstrip (rstrip s)

/-- `s.split(c)` for a one-character separator. -/
def splitChar (c : Char) : PyStr → List PyStr
  | [] => [[]]
  | x :: xs =>
    match splitChar c xs with
    | [] => [[]]
    | h :: t => if x = c then [] :: h :: t else (x :: h) :: t

/-- `s.split("\n\n")` (leftmost, non-overlapping occurrences). -/
def splitNN : PyStr → List PyStr
  | [] => [[]]
  | [x] => [[x]]
  | a :: b :: xs =>
    if a = '\n' && b = '\n' then [] :: splitNN xs
    else
      match splitNN (b :: xs) with
      | [] => [[]]
      | h :: t => (a :: h) :: t

/-- Does `s` contain `"\n\n"` as a substring? -/
def hasNN : PyStr → Bool
  | [] => false
  | [_] => false
  | a :: b :: xs => (a = '\n' && b = '\n') || hasNN (b :: xs)

/-- `"\n".join(parts)` -/
def joinNL : List PyStr → PyStr
  | [] => []
  | [s] => s
  | s :: r :: rest => s ++ '\n' :: joinNL (r :: rest)

/-- `"\n\n".join(parts)` -/
def joinNN : List PyStr → PyStr
  | [] => []
  | [s] => s
  | s :: r :: rest => s ++ '\n' :: '\n' :: joinNN (r :: rest)

/-- `str.splitlines()` for `'\n'`-separated text (the only line break
the pipeline produces): no trailing empty line, empty text gives no
lines. -/
def pySplitlines (s : PyStr) : List PyStr :=
  if s = [] then []
  else if s.getLast? = some '\n' then (splitChar '\n' s).dropLast
  else splitChar '\n' s

/-- `re.match(r'^#{1,6}\s+', line)`: one to six leading hashes followed
by a whitespace character. -/
def isHeadingLine (line : PyStr) : Bool :=
  let k := (line.takeWhile (fun c => c = '#')).length
  decide (1 ≤ k) && decide (k ≤ 6) &&
    (match line.dropWhile (fun c => c = '#') with
     | c :: _ => pySpace c
     | [] => false)

/-- `re.sub(r'^#{1,6}\s+', '', line)` for a matching line: drop the
hash run and the (greedy) whitespace run after it. -/
def headingTitle (line : PyStr) : PyStr :=
  (line.dropWhile (fun c => c = '#')).dropWhile pySpace

/-- `re.match(r'^\d+[\.\)]\s+', line)` -/
def isOrderedLine (line : PyStr) : Bool :=
  !(line.takeWhile Char.isDigit).isEmpty &&
    (match line.dropWhile Char.isDigit with
     | m :: c :: _ => (m = '.' || m = ')') && pySpace c
     | _ => false)

/-- `re.sub(r'^(\d+)[\.\)]\s+', r'\1. ', line)`: the digits are kept,
the marker is normalised to `". "`, the whitespace run is dropped. -/
def orderedItem (line : PyStr) : PyStr :=
  line.takeWhile Char.isDigit ++ '.' :: ' ' ::
    (match line.dropWhile Char.isDigit with
     | _ :: r => r.dropWhile pySpace
     | [] => [])

/-- `re.match(r'^[-*+]\s+', line)` -/
def isUnorderedLine (line : PyStr) : Bool :=
  match line with
  | m :: c :: _ => (m = '-' || m = '*' || m = '+') && pySpace c
  | _ => false

/-- `re.sub(r'^[-*+]\s+', '', line)` -/
def unorderedItem (line : PyStr) : PyStr :=
  (line.drop 1).dropWhile pySpace

/-- `re.sub(r'(\*\*|\*|__|_|`)', '', line)`: every star, underscore and
backtick character is removed. -/
def stripEmph (line : PyStr) : PyStr :=
  line.filter (fun c => !(c = '*' || c = '_' || c = '`'))

/-- `"|" in s` -/
def hasPipe (s : PyStr) : Bool := s.any (fun c => c = '|')

/-- `"---" in s` -/
def hasDashSep : PyStr → Bool
  | '-' :: '-' :: '-' :: _ => true
  | _ :: xs => hasDashSep xs
  | [] => false

/-- `s.strip("|")` -/
def stripPipes (s : PyStr) : PyStr :=
  ((s.dropWhile (fun c => c = '|')).reverse.dropWhile (fun c => c = '|')).reverse

/-- `[c.strip() for c in s.strip("|").split("|")]` -/
def parseCells (s : PyStr) : List PyStr :=
  (splitChar '|' (stripPipes s)).map strip

/-- Sequencing of an option-valued map over a list (a Python loop or
comprehension whose body may raise). -/
def optMap {α β : Type} (f : α → Option β) : List α → Option (List β)
  | [] => some []
  | x :: xs =>
    match f x, optMap f xs with
    | some y, some ys => some (y :: ys)
    | _, _ => none

/-- Python `max` over a (nonempty) list of lengths. -/
def pyMax (l : List Nat) : Nat := l.foldl max 0

/-- `widths = [max(len(row[j]) for row in [headers] + rows) for j in range(len(headers))]`;
a row shorter than the header makes `row[j]` raise, modelled as `none`. -/
def widthsOf (headers : List PyStr) (rows : List (List PyStr)) : Option (List Nat) :=
  optMap (fun j =>
      (optMap (fun row => row.get? j) (headers :: rows)).map
        (fun col => pyMax (col.map List.length)))
    (List.range headers.length)

/-- `s.ljust(w)` -/
def ljust (s : PyStr) (w : Nat) : PyStr := s ++ List.replicate (w - s.length) ' '

/-- `" | ".join(row[j].ljust(widths[j]) for j in range(len(row)))`;
`widths[j]` raises for a row longer than the header, modelled as
`none`. -/
def fmtRow (widths : List Nat) (row : List PyStr) : Option PyStr :=
  (optMap (fun j =>
      match row.get? j, widths.get? j with
      | some c, some w => some (ljust c w)
      | _, _ => none)
    (List.range row.length)).map (List.intercalate [' ', '|', ' '])

/-- `"-+-".join("-" * w for w in widths)` -/
def sepRow (widths : List Nat) : PyStr :=
  List.intercalate ['-', '+', '-'] (widths.map (fun w => List.replicate w '-'))

/-- The table-rendering part of `smart_format` (`src/main.py`
lines 106-114): compute column widths from the header row, then render
header, separator row and data rows. -/
def tableLines (headers : List PyStr) (rows : List (List PyStr)) : Option (List PyStr) :=
  match widthsOf headers rows with
  | none => none
  | some ws =>
    match fmtRow ws headers, optMap (fmtRow ws) rows with
    | some h, some rs => some (h :: sepRow ws :: rs)
    | _, _ => none

/-- `str.upper()` (exact on ASCII). -/
def upper (s : PyStr) : PyStr := s.map Char.toUpper

/-- Decimal rendering of a natural, as Python's f-string renders an
`int`. -/
def natStr (n : Nat) : PyStr := (toString n).toList

/-- The body line emitted for a heading: `f"{section}. {title.upper()}"`. -/
def secLine (n : Nat) (title : PyStr) : PyStr := natStr n ++ '.' :: ' ' :: upper title

/-- The mutable state of `smart_format`'s scanning loop. -/
structure FmtState where
  out : List PyStr
  toc : List (Nat × PyStr)
  bullets : List PyStr
  sec : Nat
deriving Repr, DecidableEq

/-- The five mutually exclusive line classes of the scanner, in the
priority order of `smart_format`. -/
inductive StepKind where
  | heading (title : PyStr)
  | table
  | ordered (item : PyStr)
  | unordered (item : PyStr)
  | plain (kept : Option PyStr)
deriving Repr, DecidableEq

/-- Classify the current line (`rstrip`ped first, as in the loop) with
one line of raw lookahead for the table rule. -/
def classify (l₀ : PyStr) (rest : List PyStr) : StepKind :=
  let line := rstrip l₀
  if isHeadingLine line then .heading (headingTitle line)
  else if hasPipe line && hasDashSep (rest.headD []) then .table
  else if isOrderedLine line then .ordered (orderedItem line)
  else if isUnorderedLine line then .unordered (unorderedItem line)
  else .plain (if (strip (stripEmph line)).isEmpty then none else some (stripEmph line))

/-- One run of `smart_format`'s while-loop, with explicit fuel
(`scanLines` supplies `lines.length`, which always suffices).  `none`
models an uncaught `IndexError` from a ragged table.  The table branch
consumes the separator line and then every following raw line that
contains a pipe. -/
def scanGo : Nat → List PyStr → FmtState → Option FmtState
  | _, [], st => some st
  | 0, _ :: _, st => some st
  | fuel + 1, l₀ :: rest, st =>
    match classify l₀ rest with
    | .heading title =>
      scanGo fuel rest
        { out := st.out ++ [[], secLine st.sec title, List.replicate (title.length + 3) '─'],
          toc := st.toc ++ [(st.sec, title)],
          bullets := st.bullets, sec := st.sec + 1 }
    | .table =>
      match tableLines (parseCells (rstrip l₀)) ((rest.tail.takeWhile hasPipe).map parseCells) with
      | none => none
      | some t => scanGo fuel (rest.tail.dropWhile hasPipe) { st with out := st.out ++ t }
    | .ordered item =>
      scanGo fuel rest { st with out := st.out ++ [item], bullets := st.bullets ++ [item] }
    | .unordered item =>
      scanGo fuel rest { st with out := st.out ++ ['•' :: ' ' :: item], bullets := st.bullets ++ [item] }
    | .plain kept =>
      scanGo fuel rest { st with out := st.out ++ kept.toList }

/-- `smart_format`'s scanning loop over the already split lines. -/
def scanLines (lines : List PyStr) (st : FmtState) : Option FmtState :=
  scanGo lines.length lines st

def initState : FmtState := ⟨[], [], [], 1⟩

/-- The heading titles the scanner collects, in source order (lines
eaten by a table block are skipped, as in the code). -/
def headingsGo : Nat → List PyStr → List PyStr
  | _, [] => []
  | 0, _ :: _ => []
  | fuel + 1, l₀ :: rest =>
    match classify l₀ rest with
    | .heading title => title :: headingsGo fuel rest
    | .table => headingsGo fuel (rest.tail.dropWhile hasPipe)
    | _ => headingsGo fuel rest

def headingsOf (lines : List PyStr) : List PyStr := headingsGo lines.length lines

/-- The normalised list items the scanner collects (`bullets`), in
source order: ordered items keep their `"<n>. "` marker, unordered
items have their marker stripped. -/
def collectGo : Nat → List PyStr → List PyStr
  | _, [] => []
  | 0, _ :: _ => []
  | fuel + 1, l₀ :: rest =>
    match classify l₀ rest with
    | .ordered item => item :: collectGo fuel rest
    | .unordered item => item :: collectGo fuel rest
    | .table => collectGo fuel (rest.tail.dropWhile hasPipe)
    | _ => collectGo fuel rest

def collectItems (lines : List PyStr) : List PyStr := collectGo lines.length lines

def tocTitleLine : PyStr := "ОГЛАВЛЕНИЕ".toList

def tocUnderLine : PyStr := List.replicate 10 '─'

def sumTitleLine : PyStr := "КРАТКОЕ РЕЗЮМЕ".toList

def sumUnderLine : PyStr := List.replicate 13 '─'

def greetingLine : PyStr := "Уважаемые коллеги,\n".toList

def signatureLine : PyStr := "\nС уважением,".toList

/-- Lines 139-142: the synthesized TOC block (title, underline, one
entry `f"{n}. {t}"` per heading). -/
def tocBlockLines (toc : List (Nat × PyStr)) : List PyStr :=
  tocTitleLine :: tocUnderLine :: toc.map (fun p => natStr p.1 ++ '.' :: ' ' :: p.2)

/-- Lines 144-147: the synthesized summary block (blank line, title,
underline, first five collected items bullet-prefixed). -/
def summaryBlockLines (bullets : List PyStr) : List PyStr :=
  [] :: sumTitleLine :: sumUnderLine :: (bullets.take 5).map (fun b => '•' :: ' ' :: b)

/-- Lines 138-152: assemble the final line list from the scan state. -/
def assembleLines (style : String) (st : FmtState) : List PyStr :=
  let withToc := if 2 ≤ st.toc.length then tocBlockLines st.toc ++ [[]] ++ st.out else st.out
  let withSum := if st.bullets.isEmpty then withToc else withToc ++ summaryBlockLines st.bullets
  if style = "LETTER" then greetingLine :: withSum ++ [signatureLine] else withSum

/-- `smart_format(text, style)`; `none` models an uncaught exception
from a ragged table block. -/
def smart_format (text : PyStr) (style : String) : Option PyStr :=
  (scanLines (pySplitlines text) initState).map
    (fun st => strip (joinNL (assembleLines style st)))

def MAX_TG_LEN : Nat := 4096

/-- The accumulation loop of `split_text` (lines 156-164). -/
def splitLoop : List PyStr → List PyStr → PyStr → List PyStr
  | [], parts, cur => if strip cur = [] then parts else parts ++ [strip cur]
  | p :: ps, parts, cur =>
    if cur.length + p.length + 2 ≤ MAX_TG_LEN then
      splitLoop ps parts (cur ++ p ++ ['\n', '\n'])
    else
      splitLoop ps (parts ++ [strip cur]) (p ++ ['\n', '\n'])

/-- `split_text(text)` -/
def split_text (text : PyStr) : List PyStr := splitLoop (splitNN text) [] []

/-- Every character of `s` is Python whitespace. -/
def allSpace (s : PyStr) : Prop := ∀ c ∈ s, pySpace c = true

/-- The unread paragraphs written back with their restored separators,
exactly as the loop accumulates `cur += para + "\n\n"`. -/
def joinTrail : List PyStr → PyStr
  | [] => []
  | p :: ps => p ++ '\n' :: '\n' :: joinTrail ps

/-- `sandwich [w₀, w₁, ..., wₘ] [c₁, ..., cₘ] = w₀ ++ c₁ ++ w₁ ++ ... ++ cₘ ++ wₘ`:
the chunks interleaved with the whitespace the trimming removed. -/
def sandwich (ws : List PyStr) (cs : List PyStr) : PyStr :=
  match cs, ws with
  | [], [w] => w
  | [], _ => []
  | _ :: _, [] => []
  | c :: cs', w :: ws' => w ++ c ++ sandwich ws' cs'

/-- A chunk is empty or ends in a non-whitespace character (true of
every `strip` result). -/
def chunkOk (c : PyStr) : Prop :=
  c = [] ∨ ∃ ch, c.getLast? = some ch ∧ pySpace ch = false

def c4ex : PyStr := "# Duties\nSome text.\n\n# Fees\nMore text.".toList

def c4st : FmtState :=
  ⟨[[], "1. DUTIES".toList, List.replicate 9 '─', "Some text.".toList,
     [], "2. FEES".toList, List.replicate 7 '─', "More text.".toList],
   [(1, "Duties".toList), (2, "Fees".toList)], [], 3⟩

def c8ex : PyStr := "# A\n- x".toList

def c8st : FmtState :=
  ⟨[[], "1. A".toList, List.replicate 4 '─', "• x".toList], [(1, "A".toList)], ["x".toList], 2⟩

def c1ex : PyStr := "1. First".toList

def c1st : FmtState := ⟨["1. First".toList], [], ["1. First".toList], 1⟩

def c7ex : PyStr := "x".toList

/-! ### Basic facts about the scanner -/

theorem scanGo_nil (f : Nat) (st : FmtState) : scanGo f [] st = some st := by
  cases f <;> rfl

theorem classify_heading {l : PyStr} (rest : List PyStr)
    (h : isHeadingLine (rstrip l) = true) :
    classify l rest = .heading (headingTitle (rstrip l)) := by
  simp [classify, h]

theorem scanGo_heading {l : PyStr} {rest : List PyStr} {title : PyStr}
    (fuel : Nat) (st : FmtState) (h : classify l rest = .heading title) :
    scanGo (fuel + 1) (l :: rest) st =
      scanGo fuel rest
        { out := st.out ++ [[], secLine st.sec title, List.replicate (title.length + 3) '─'],
          toc := st.toc ++ [(st.sec, title)],
          bullets := st.bullets, sec := st.sec + 1 } := by
  rw [scanGo, h]

theorem scanGo_table {l : PyStr} {rest : List PyStr}
    (fuel : Nat) (st : FmtState) (h : classify l rest = .table) :
    scanGo (fuel + 1) (l :: rest) st =
      match tableLines (parseCells (rstrip l)) ((rest.tail.takeWhile hasPipe).map parseCells) with
      | none => none
      | some t => scanGo fuel (rest.tail.dropWhile hasPipe) { st with out := st.out ++ t } := by
  rw [scanGo, h]

theorem scanGo_ordered {l : PyStr} {rest : List PyStr} {item : PyStr}
    (fuel : Nat) (st : FmtState) (h : classify l rest = .ordered item) :
    scanGo (fuel + 1) (l :: rest) st =
      scanGo fuel rest { st with out := st.out ++ [item], bullets := st.bullets ++ [item] } := by
  rw [scanGo, h]

theorem scanGo_unordered {l : PyStr} {rest : List PyStr} {item : PyStr}
    (fuel : Nat) (st : FmtState) (h : classify l rest = .unordered item) :
    scanGo (fuel + 1) (l :: rest) st =
      scanGo fuel rest
        { st with out := st.out ++ ['•' :: ' ' :: item], bullets := st.bullets ++ [item] } := by
  rw [scanGo, h]

theorem scanGo_plain {l : PyStr} {rest : List PyStr} {kept : Option PyStr}
    (fuel : Nat) (st : FmtState) (h : classify l rest = .plain kept) :
    scanGo (fuel + 1) (l :: rest) st =
      scanGo fuel rest { st with out := st.out ++ kept.toList } := by
  rw [scanGo, h]

/-! ### Claim theorems: the easy, computational ones -/

/-- **C10** (confirmed).  Of the three recognized style tokens only
`LETTER` changes the output: `smart_format` with style `REFERENCE`
returns exactly the same output as with style `REPORT`, on every input
text. -/
theorem c10_reference_eq_report (text : PyStr) :
    smart_format text "REFERENCE" = smart_format text "REPORT" := by
  simp [smart_format, assembleLines]

/-- **C1** (counterexample).  On the input `"1. First"` the summary
block's only entry is `"• 1. First"`: the numbered marker is *kept*
behind the bullet glyph, and the bare text `"• First"` claimed by the
spec appears nowhere in the output lines. -/
theorem c1_counterexample :
    smart_format ("1. First".toList) "REPORT" =
        some ("1. First\n\nКРАТКОЕ РЕЗЮМЕ\n─────────────\n• 1. First".toList) ∧
    "• 1. First".toList ∈
        splitChar '\n' ("1. First\n\nКРАТКОЕ РЕЗЮМЕ\n─────────────\n• 1. First".toList) ∧
    "• First".toList ∉
        splitChar '\n' ("1. First\n\nКРАТКОЕ РЕЗЮМЕ\n─────────────\n• 1. First".toList) :=
  ⟨by decide, by decide, by decide⟩

/-- **C3** (counterexample).  A table row with *more* cells than the
header (`"x|y|z"` under header `"a|b"`) does not render with the extra
cells dropped: the whole call fails with the out-of-range condition
(modelled as `none`), because the row formatter indexes `widths[j]`
for every cell index `j` of the row. -/
theorem c3_counterexample :
    smart_format ("a|b\n---\nx|y|z".toList) "REPORT" = none := by
  decide

/-! ### Whitespace and `strip` lemmas -/

theorem allSpace_append {a b : PyStr} (ha : allSpace a) (hb : allSpace b) :
    allSpace (a ++ b) := by
  intro c hc
  rcases List.mem_append.mp hc with h | h
  · exact ha c h
  · exact hb c h

theorem lstrip_decomp (s : PyStr) : ∃ w, allSpace w ∧ s = w ++ lstrip s :=
  ⟨s.takeWhile pySpace, fun _ hc => List.mem_takeWhile_imp hc,
    (List.takeWhile_append_dropWhile pySpace s).symm⟩

theorem rstrip_decomp (s : PyStr) : ∃ w, allSpace w ∧ s = rstrip s ++ w := by
  refine ⟨(s.reverse.takeWhile pySpace).reverse, ?_, ?_⟩
  · intro c hc
    exact List.mem_takeWhile_imp (List.mem_reverse.mp hc)
  · have h := congrArg List.reverse (List.takeWhile_append_dropWhile pySpace s.reverse)
    rw [List.reverse_append, List.reverse_reverse] at h
    exact h.symm

theorem strip_decomp (s : PyStr) :
    ∃ w₁ w₂, allSpace w₁ ∧ allSpace w₂ ∧ s = w₁ ++ strip s ++ w₂ := by
  obtain ⟨w₂, hw₂, h₂⟩ := rstrip_decomp s
  obtain ⟨w₁, hw₁, h₁⟩ := lstrip_decomp (rstrip s)
  refine ⟨w₁, w₂, hw₁, hw₂, ?_⟩
  calc s = rstrip s ++ w₂ := h₂
    _ = (w₁ ++ strip s) ++ w₂ := by rw [show rstrip s = w₁ ++ strip s from h₁]
    _ = w₁ ++ strip s ++ w₂ := by simp [List.append_assoc]

theorem strip_length_le (s : PyStr) : (strip s).length ≤ s.length := by
  obtain ⟨w₁, w₂, _, _, h⟩ := strip_decomp s
  have h' := congrArg List.length h
  simp [List.length_append] at h'
  omega

theorem allSpace_of_strip_eq_nil {s : PyStr} (h : strip s = []) : allSpace s := by
  obtain ⟨w₁, w₂, h₁, h₂, hs⟩ := strip_decomp s
  rw [h] at hs
  simp only [List.append_nil] at hs
  rw [hs]
  exact allSpace_append h₁ h₂

theorem length_dropWhile_le {α : Type} (p : α → Bool) (l : List α) :
    (l.dropWhile p).length ≤ l.length := by
  induction l with
  | nil => simp
  | cons a t ih =>
    by_cases h : p a
    · simp only [List.dropWhile_cons, h, if_true, List.length_cons]
      omega
    · simp [List.dropWhile_cons, h]

theorem dropWhile_head_or {α : Type} (p : α → Bool) (l : List α) :
    l.dropWhile p = [] ∨ ∃ c t, l.dropWhile p = c :: t ∧ p c = false := by
  induction l with
  | nil => exact .inl rfl
  | cons a t ih =>
    by_cases h : p a
    · simpa [List.dropWhile_cons, h] using ih
    · exact .inr ⟨a, t, by simp [List.dropWhile_cons, h], by simp [h]⟩

theorem dropWhile_append_of_allSpace {t s : PyStr} (h : allSpace t) :
    List.dropWhile pySpace (t ++ s) = List.dropWhile pySpace s := by
  induction t with
  | nil => rfl
  | cons a u ih =>
    have ha : pySpace a = true := h a (by simp)
    have hu : allSpace u := fun c hc => h c (by simp [hc])
    simp [List.dropWhile_cons, ha, ih hu]

theorem strip_append_allSpace {t : PyStr} (s : PyStr) (h : allSpace t) :
    strip (s ++ t) = strip s := by
  unfold strip rstrip lstrip
  rw [List.reverse_append]
  rw [dropWhile_append_of_allSpace (fun c hc => h c (List.mem_reverse.mp hc))]

/-! ### `splitNN` on texts without a paragraph break -/

theorem splitNN_single : ∀ {s : PyStr}, hasNN s = false → splitNN s = [s] := by
  intro s
  induction s with
  | nil => intro _; rfl
  | cons a s ih =>
    cases s with
    | nil => intro _; rfl
    | cons b xs =>
      intro h
      rw [hasNN] at h
      simp only [Bool.or_eq_false_iff, Bool.and_eq_false_iff] at h
      have hcond : (decide (a = '\n') && decide (b = '\n')) = false := by
        rcases h.1 with h' | h' <;> simp [h']
      rw [splitNN, if_neg (by simp [hcond]), ih h.2]

theorem hasNN_replicate (n : Nat) {c : Char} (hc : c ≠ '\n') :
    hasNN (List.replicate n c) = false := by
  induction n with
  | zero => rfl
  | succ n ih =>
    cases n with
    | zero => rfl
    | succ m =>
      rw [List.replicate_succ, List.replicate_succ, hasNN, ← List.replicate_succ]
      simp [hc, ih]

theorem strip_replicate {c : Char} (n : Nat) (hc : pySpace c = false) :
    strip (List.replicate n c) = List.replicate n c := by
  cases n with
  | zero => rfl
  | succ m =>
    have h1 : List.dropWhile pySpace (List.replicate (m + 1) c) = List.replicate (m + 1) c := by
      rw [List.replicate_succ, List.dropWhile_cons]
      simp [hc]
    unfold strip rstrip lstrip
    rw [List.reverse_replicate, h1, List.reverse_replicate, h1]

/-- A single paragraph (no `"\n\n"` inside) that does not fit the limit
is flushed as an *empty* first chunk followed by the oversized chunk. -/
theorem split_text_oversized {p : PyStr} (h1 : hasNN p = false)
    (h2 : MAX_TG_LEN < p.length + 2) (h3 : strip p ≠ []) :
    split_text p = [[], strip p] := by
  have hnn : allSpace ['\n', '\n'] := by
    intro c hc
    rcases List.mem_cons.mp hc with h | h
    · rw [h]; rfl
    · rcases List.mem_cons.mp h with h' | h'
      · rw [h']; rfl
      · simp at h'
  unfold split_text
  rw [splitNN_single h1, splitLoop, if_neg (by simp only [List.length_nil]; omega), splitLoop,
    strip_append_allSpace p hnn, if_neg h3]
  rfl

/-- **C2** (the code violates the claim).  On the input consisting of a
single paragraph of 4095 `'a'` characters (which alone exceeds the
4096-character transport limit), `split_text` returns an *empty first
chunk* before the oversized chunk, contradicting "every chunk is
non-empty ... also when the first paragraph alone exceeds the transport
limit". -/
theorem c2_empty_chunk_eval :
    split_text (List.replicate 4095 'a') = [[], List.replicate 4095 'a'] ∧
    [] ∈ split_text (List.replicate 4095 'a') := by
  have hs : strip (List.replicate 4095 'a') = List.replicate 4095 'a' :=
    strip_replicate _ (by decide)
  have hne : strip (List.replicate 4095 'a') ≠ [] := by
    rw [hs]
    intro hnil
    have h' := congrArg List.length hnil
    rw [List.length_replicate] at h'
    simp at h'
  have h := split_text_oversized (p := List.replicate 4095 'a')
    (hasNN_replicate _ (by decide)) (by rw [List.length_replicate]; decide) hne
  rw [hs] at h
  refine ⟨h, ?_⟩
  rw [h]
  exact List.mem_cons_self _ _

/-- **C9** (confirmed).  For every heading line (one to six leading
hashes followed by whitespace), the scanner appends exactly three lines
to the body: a blank separator, `"<n>. <TITLE>"` with the title
uppercased, and an underline of box-drawing dashes of length
`len(title) + 3`; it also records the TOC entry and bumps the section
counter. -/
theorem c9_heading_step (l : PyStr) (rest : List PyStr) (st : FmtState)
    (h : isHeadingLine (rstrip l) = true) :
    scanLines (l :: rest) st =
      scanLines rest
        { out := st.out ++ [[], secLine st.sec (headingTitle (rstrip l)),
            List.replicate ((headingTitle (rstrip l)).length + 3) '─'],
          toc := st.toc ++ [(st.sec, headingTitle (rstrip l))],
          bullets := st.bullets, sec := st.sec + 1 } := by
  show scanGo (l :: rest).length (l :: rest) st = _
  rw [List.length_cons, scanGo_heading rest.length st (classify_heading rest h)]
  rfl

/-- **C9** witness: the heading step evaluated on the concrete line
`"# Hi"`. -/
theorem c9_heading_step_witness :
    scanLines ["# Hi".toList] initState =
      scanLines []
        { out := initState.out ++ [[], secLine initState.sec (headingTitle (rstrip "# Hi".toList)),
            List.replicate ((headingTitle (rstrip "# Hi".toList)).length + 3) '─'],
          toc := initState.toc ++ [(initState.sec, headingTitle (rstrip "# Hi".toList))],
          bullets := initState.bullets, sec := initState.sec + 1 } :=
  c9_heading_step "# Hi".toList [] initState (by decide)

/-! ### Table rendering: ragged rows -/

theorem optMap_eq_none_iff {α β : Type} (f : α → Option β) (l : List α) :
    optMap f l = none ↔ ∃ x ∈ l, f x = none := by
  induction l with
  | nil => simp [optMap]
  | cons a t ih =>
    cases hfa : f a with
    | none => simp [optMap, hfa]
    | some y =>
      cases hrec : optMap f t with
      | none =>
        simp only [optMap, hfa, hrec]
        obtain ⟨x, hx, hfx⟩ := ih.mp hrec
        exact iff_of_true trivial ⟨x, List.mem_cons_of_mem _ hx, hfx⟩
      | some ys =>
        simp only [optMap, hfa, hrec]
        constructor
        · intro h; cases h
        · rintro ⟨x, hx, hfx⟩
          rcases List.mem_cons.mp hx with rfl | hx'
          · rw [hfx] at hfa; cases hfa
          · have hn : optMap f t = none := (ih.mpr ⟨x, hx', hfx⟩)
            rw [hn] at hrec; cases hrec

theorem optMap_some_length {α β : Type} (f : α → Option β) :
    ∀ {l : List α} {ys : List β}, optMap f l = some ys → ys.length = l.length := by
  intro l
  induction l with
  | nil => intro ys h; cases h; rfl
  | cons a t ih =>
    intro ys h
    rw [optMap] at h
    cases hfa : f a with
    | none => rw [hfa] at h; cases h
    | some y =>
      rw [hfa] at h
      cases hrec : optMap f t with
      | none => rw [hrec] at h; cases h
      | some ys' =>
        rw [hrec] at h
        cases h
        simp [ih hrec]

theorem widthsOf_eq_none_iff (headers : List PyStr) (rows : List (List PyStr)) :
    widthsOf headers rows = none ↔ ∃ r ∈ rows, r.length < headers.length := by
  unfold widthsOf
  rw [optMap_eq_none_iff]
  constructor
  · rintro ⟨j, hj, hnone⟩
    rw [List.mem_range] at hj
    rw [Option.map_eq_none', optMap_eq_none_iff] at hnone
    obtain ⟨row, hrow, hget⟩ := hnone
    rw [List.get?_eq_none] at hget
    rcases List.mem_cons.mp hrow with rfl | hr
    · omega
    · exact ⟨row, hr, by omega⟩
  · rintro ⟨r, hr, hlen⟩
    refine ⟨r.length, List.mem_range.mpr hlen, ?_⟩
    rw [Option.map_eq_none', optMap_eq_none_iff]
    exact ⟨r, List.mem_cons_of_mem _ hr, List.get?_eq_none.mpr le_rfl⟩

theorem widthsOf_some_length {headers : List PyStr} {rows : List (List PyStr)}
    {ws : List Nat} (h : widthsOf headers rows = some ws) : ws.length = headers.length := by
  unfold widthsOf at h
  have h' := optMap_some_length _ h
  simpa using h'

theorem fmtRow_eq_none_iff (ws : List Nat) (row : List PyStr) :
    fmtRow ws row = none ↔ ws.length < row.length := by
  unfold fmtRow
  rw [Option.map_eq_none', optMap_eq_none_iff]
  constructor
  · rintro ⟨j, hj, hnone⟩
    rw [List.mem_range] at hj
    rcases hw : ws.get? j with _ | w
    · rw [List.get?_eq_none] at hw; omega
    · rcases hrj : row.get? j with _ | c
      · rw [List.get?_eq_none] at hrj; omega
      · rw [hrj, hw] at hnone; cases hnone
  · intro h
    refine ⟨ws.length, List.mem_range.mpr h, ?_⟩
    rw [List.get?_eq_none.mpr le_rfl]
    rcases row.get? ws.length with _ | c <;> rfl

/-- **C3** (amended).  A table row whose cell count differs from the
header's in *either* direction makes the table rendering fail with the
out-of-range condition; in particular rows with more cells than the
header are not silently truncated.  `tableLines` fails exactly when
some row's cell count differs from the header's. -/
theorem tableLines_none_widths {headers : List PyStr} {rows : List (List PyStr)}
    (hw : widthsOf headers rows = none) : tableLines headers rows = none := by
  unfold tableLines
  rw [hw]

theorem tableLines_some_widths {headers : List PyStr} {rows : List (List PyStr)}
    {ws : List Nat} (hw : widthsOf headers rows = some ws) :
    tableLines headers rows =
      match fmtRow ws headers, optMap (fmtRow ws) rows with
      | some hl, some rs => some (hl :: sepRow ws :: rs)
      | _, _ => none := by
  unfold tableLines
  rw [hw]

theorem c3_ragged_rows_amended (headers : List PyStr) (rows : List (List PyStr)) :
    tableLines headers rows = none ↔ ∃ r ∈ rows, r.length ≠ headers.length := by
  constructor
  · intro h
    rcases hw : widthsOf headers rows with _ | ws
    · obtain ⟨r, hr, hlt⟩ := (widthsOf_eq_none_iff headers rows).mp hw
      exact ⟨r, hr, by omega⟩
    · have hwlen := widthsOf_some_length hw
      have h2 := (tableLines_some_widths hw).symm.trans h
      rcases hh : fmtRow ws headers with _ | hline
      · rw [fmtRow_eq_none_iff] at hh
        omega
      · rcases hrs : optMap (fmtRow ws) rows with _ | rs
        · obtain ⟨r, hr, hnone⟩ := (optMap_eq_none_iff _ _).mp hrs
          rw [fmtRow_eq_none_iff] at hnone
          exact ⟨r, hr, by omega⟩
        · rw [hh, hrs] at h2
          simp at h2
  · rintro ⟨r, hr, hne⟩
    rcases hw : widthsOf headers rows with _ | ws
    · exact tableLines_none_widths hw
    · have hwlen := widthsOf_some_length hw
      rw [tableLines_some_widths hw]
      rcases Nat.lt_or_ge r.length headers.length with hlt | hge
      · have hn : widthsOf headers rows = none := (widthsOf_eq_none_iff _ _).mpr ⟨r, hr, hlt⟩
        rw [hn] at hw
        cases hw
      · have hrow : fmtRow ws r = none := (fmtRow_eq_none_iff _ _).mpr (by omega)
        have hn : optMap (fmtRow ws) rows = none := (optMap_eq_none_iff _ _).mpr ⟨r, hr, hrow⟩
        rw [hn]
        cases fmtRow ws headers <;> rfl

/-! ### The scan characterization: TOC entries, section numbers, bullets -/

theorem scanGo_table_none {l : PyStr} {rest : List PyStr}
    (fuel : Nat) (st : FmtState) (hc : classify l rest = .table)
    (ht : tableLines (parseCells (rstrip l)) ((rest.tail.takeWhile hasPipe).map parseCells) = none) :
    scanGo (fuel + 1) (l :: rest) st = none := by
  rw [scanGo, hc, ht]

theorem scanGo_table_some {l : PyStr} {rest : List PyStr} {t : List PyStr}
    (fuel : Nat) (st : FmtState) (hc : classify l rest = .table)
    (ht : tableLines (parseCells (rstrip l)) ((rest.tail.takeWhile hasPipe).map parseCells) = some t) :
    scanGo (fuel + 1) (l :: rest) st =
      scanGo fuel (rest.tail.dropWhile hasPipe) { st with out := st.out ++ t } := by
  rw [scanGo, hc, ht]

theorem headingsGo_nil (f : Nat) : headingsGo f [] = [] := by cases f <;> rfl

theorem collectGo_nil (f : Nat) : collectGo f [] = [] := by cases f <;> rfl

/-- The scan loop only ever appends to `out`, `toc` and `bullets`:
on success, the TOC gains exactly the headings found, numbered
consecutively from the incoming section counter, the bullets gain
exactly the collected list items, and the body gains lines among which
the numbered section-header lines appear in order. -/
theorem scanGo_spec : ∀ (f : Nat) (lines : List PyStr) (st st' : FmtState),
    scanGo f lines st = some st' →
    st'.sec = st.sec + (headingsGo f lines).length ∧
    st'.toc = st.toc ++ (List.range' st.sec (headingsGo f lines).length).zip (headingsGo f lines) ∧
    st'.bullets = st.bullets ++ collectGo f lines ∧
    ∃ d, st'.out = st.out ++ d ∧
      (((List.range' st.sec (headingsGo f lines).length).zip (headingsGo f lines)).map
        (fun p => secLine p.1 p.2)).Sublist d := by
  intro f
  induction f with
  | zero =>
    intro lines st st' hscan
    have hst : st' = st := by
      cases lines with
      | nil => cases hscan; rfl
      | cons a t => cases hscan; rfl
    subst hst
    cases lines <;> exact ⟨by simp [headingsGo_nil, headingsGo], by simp [headingsGo_nil, headingsGo],
      by simp [collectGo_nil, collectGo], [], by simp, by simp [headingsGo_nil, headingsGo]⟩
  | succ f ih =>
    intro lines st st' hscan
    cases lines with
    | nil =>
      rw [scanGo_nil] at hscan
      cases hscan
      exact ⟨by simp [headingsGo_nil], by simp [headingsGo_nil], by simp [collectGo_nil],
        [], by simp, by simp [headingsGo_nil]⟩
    | cons l₀ rest =>
      rcases hc : classify l₀ rest with title | _ | item | item | kept
      · -- heading
        rw [scanGo_heading f st hc] at hscan
        obtain ⟨h1, h2, h3, d, h4, h5⟩ := ih rest _ st' hscan
        dsimp only at h1 h2 h3 h4
        rw [headingsGo, hc]
        rw [collectGo, hc]
        refine ⟨?_, ?_, h3, [[], secLine st.sec title,
          List.replicate (title.length + 3) '─'] ++ d, ?_, ?_⟩
        · rw [h1]
          simp [Nat.add_assoc, Nat.add_comm 1]
        · rw [h2, List.length_cons, List.range'_succ, List.zip_cons_cons]
          simp [List.append_assoc]
        · rw [h4]
          simp [List.append_assoc]
        · rw [List.length_cons, List.range'_succ, List.zip_cons_cons, List.map_cons]
          exact List.Sublist.cons _ (List.Sublist.cons₂ _ (List.Sublist.cons _ h5))
      · -- table
        rcases ht : tableLines (parseCells (rstrip l₀))
            ((rest.tail.takeWhile hasPipe).map parseCells) with _ | t
        · rw [scanGo_table_none f st hc ht] at hscan
          cases hscan
        · rw [scanGo_table_some f st hc ht] at hscan
          obtain ⟨h1, h2, h3, d, h4, h5⟩ := ih _ _ st' hscan
          dsimp only at h1 h2 h3 h4
          rw [headingsGo, hc]
          rw [collectGo, hc]
          exact ⟨h1, h2, h3, t ++ d, by rw [h4]; simp [List.append_assoc],
            h5.trans (List.sublist_append_right _ _)⟩
      · -- ordered item
        rw [scanGo_ordered f st hc] at hscan
        obtain ⟨h1, h2, h3, d, h4, h5⟩ := ih rest _ st' hscan
        dsimp only at h1 h2 h3 h4
        rw [headingsGo, hc]
        rw [collectGo, hc]
        refine ⟨h1, h2, ?_, [item] ++ d, by rw [h4]; simp [List.append_assoc],
          h5.trans (List.sublist_append_right _ _)⟩
        rw [h3]
        simp [List.append_assoc]
      · -- unordered item
        rw [scanGo_unordered f st hc] at hscan
        obtain ⟨h1, h2, h3, d, h4, h5⟩ := ih rest _ st' hscan
        dsimp only at h1 h2 h3 h4
        rw [headingsGo, hc]
        rw [collectGo, hc]
        refine ⟨h1, h2, ?_, ['•' :: ' ' :: item] ++ d, by rw [h4]; simp [List.append_assoc],
          h5.trans (List.sublist_append_right _ _)⟩
        rw [h3]
        simp [List.append_assoc]
      · -- plain text
        rw [scanGo_plain f st hc] at hscan
        obtain ⟨h1, h2, h3, d, h4, h5⟩ := ih rest _ st' hscan
        dsimp only at h1 h2 h3 h4
        rw [headingsGo, hc]
        rw [collectGo, hc]
        exact ⟨h1, h2, h3, kept.toList ++ d, by rw [h4]; simp [List.append_assoc],
          h5.trans (List.sublist_append_right _ _)⟩

/-- `scanGo_spec` specialised to a full `scanLines` run from the
initial state. -/
theorem scanLines_spec {lines : List PyStr} {st' : FmtState}
    (h : scanLines lines initState = some st') :
    st'.sec = 1 + (headingsOf lines).length ∧
    st'.toc = (List.range' 1 (headingsOf lines).length).zip (headingsOf lines) ∧
    st'.bullets = collectItems lines ∧
    ∃ d, st'.out = d ∧
      (((List.range' 1 (headingsOf lines).length).zip (headingsOf lines)).map
        (fun p => secLine p.1 p.2)).Sublist d := by
  have h' := scanGo_spec lines.length lines initState st' h
  simpa [initState, headingsOf, collectItems] using h'

/-- **C4** (confirmed).  For an input in which the scanner finds
`N ≥ 2` heading lines, the TOC records exactly `N` entries numbered
`1..N` in source order, the TOC block (with those entries) is emitted
ahead of the body, and the body contains the `N` section-header lines
carrying the same numbers, in the same order. -/
theorem c4_toc_numbering (text : PyStr) (st : FmtState)
    (hscan : scanLines (pySplitlines text) initState = some st)
    (hN : 2 ≤ (headingsOf (pySplitlines text)).length) :
    st.toc.length = (headingsOf (pySplitlines text)).length ∧
    st.toc.map Prod.fst = List.range' 1 st.toc.length ∧
    (st.toc.map (fun p => secLine p.1 p.2)).Sublist st.out ∧
    ∀ style : String, ∃ pre rest, assembleLines style st =
      pre ++ tocBlockLines st.toc ++ [[]] ++ st.out ++ rest ∧
      pre = (if style = "LETTER" then [greetingLine] else []) := by
  obtain ⟨h1, h2, h3, d, h4, h5⟩ := scanLines_spec hscan
  have hlen : st.toc.length = (headingsOf (pySplitlines text)).length := by
    rw [h2, List.length_zip, List.length_range']
    simp
  refine ⟨hlen, ?_, ?_, ?_⟩
  · rw [hlen, h2]
    exact List.map_fst_zip _ _ (by rw [List.length_range'])
  · rw [← h4] at h5
    rw [h2]
    exact h5
  · intro style
    have htoc2 : 2 ≤ st.toc.length := by omega
    refine ⟨if style = "LETTER" then [greetingLine] else [],
      (if st.bullets.isEmpty then [] else summaryBlockLines st.bullets) ++
        (if style = "LETTER" then [signatureLine] else []), ?_, rfl⟩
    unfold assembleLines
    rw [if_pos htoc2]
    by_cases hb : st.bullets.isEmpty <;> by_cases hl : style = "LETTER" <;>
      simp [hb, hl, List.append_assoc]

/-- **C4** witness: the spec's own two-heading example evaluated. -/
theorem c4_toc_numbering_witness :
    c4st.toc.length = (headingsOf (pySplitlines c4ex)).length ∧
    c4st.toc.map Prod.fst = List.range' 1 c4st.toc.length ∧
    (c4st.toc.map (fun p => secLine p.1 p.2)).Sublist c4st.out ∧
    ∀ style : String, ∃ pre rest, assembleLines style c4st =
      pre ++ tocBlockLines c4st.toc ++ [[]] ++ c4st.out ++ rest ∧
      pre = (if style = "LETTER" then [greetingLine] else []) :=
  c4_toc_numbering c4ex c4st (by decide) (by decide)

/-- **C8** (confirmed).  The assembled output consists of the body
preceded by the TOC block exactly when at least two headings were
found, and followed by the summary block exactly when at least one
list item was collected; the heading count and the collected items
agree with the classifier-level `headingsOf` / `collectItems`. -/
theorem c8_block_emission (text : PyStr) (style : String) (st : FmtState)
    (hscan : scanLines (pySplitlines text) initState = some st) :
    st.toc.length = (headingsOf (pySplitlines text)).length ∧
    st.bullets = collectItems (pySplitlines text) ∧
    assembleLines style st =
      (if style = "LETTER" then [greetingLine] else []) ++
      ((if 2 ≤ st.toc.length then tocBlockLines st.toc ++ [[]] else []) ++ st.out ++
        (if st.bullets.isEmpty then [] else summaryBlockLines st.bullets)) ++
      (if style = "LETTER" then [signatureLine] else []) := by
  obtain ⟨h1, h2, h3, d, h4, h5⟩ := scanLines_spec hscan
  refine ⟨?_, h3, ?_⟩
  · rw [h2, List.length_zip, List.length_range']
    simp
  · unfold assembleLines
    by_cases h2' : 2 ≤ st.toc.length <;> by_cases hb : st.bullets.isEmpty <;>
      by_cases hl : style = "LETTER" <;> simp [h2', hb, hl, List.append_assoc]

/-- **C8** witness: one heading (no TOC block) and one bullet (summary
block emitted), evaluated on `"# A\n- x"`. -/
theorem c8_block_emission_witness :
    c8st.toc.length = (headingsOf (pySplitlines c8ex)).length ∧
    c8st.bullets = collectItems (pySplitlines c8ex) ∧
    assembleLines "REPORT" c8st =
      (if ("REPORT" : String) = "LETTER" then [greetingLine] else []) ++
      ((if 2 ≤ c8st.toc.length then tocBlockLines c8st.toc ++ [[]] else []) ++ c8st.out ++
        (if c8st.bullets.isEmpty then [] else summaryBlockLines c8st.bullets)) ++
      (if ("REPORT" : String) = "LETTER" then [signatureLine] else []) :=
  c8_block_emission c8ex "REPORT" c8st (by decide)

/-- **C1** (amended).  When the scanner collected `M ≥ 1` list items,
the assembled output ends (before the optional LETTER signature) with
the summary block: blank line, title, underline, then the first
`min(M, 5)` collected items in source order, each prefixed with the
bullet glyph.  The collected items are `collectItems`: an unordered
item's marker is stripped, but an ordered item keeps its normalised
`"<n>. "` marker behind the glyph. -/
theorem c1_summary_amended (text : PyStr) (style : String) (st : FmtState)
    (hscan : scanLines (pySplitlines text) initState = some st)
    (hM : st.bullets ≠ []) :
    st.bullets = collectItems (pySplitlines text) ∧
    summaryBlockLines st.bullets =
      [[], sumTitleLine, sumUnderLine] ++ (st.bullets.take 5).map (fun b => '•' :: ' ' :: b) ∧
    ((st.bullets.take 5).map (fun b => '•' :: ' ' :: b)).length = min st.bullets.length 5 ∧
    ∃ pre, assembleLines style st =
      pre ++ summaryBlockLines st.bullets ++
        (if style = "LETTER" then [signatureLine] else []) := by
  obtain ⟨h1, h2, h3, d, h4, h5⟩ := scanLines_spec hscan
  refine ⟨h3, rfl, by simp [List.length_take, Nat.min_comm], ?_⟩
  refine ⟨(if style = "LETTER" then [greetingLine] else []) ++
    (if 2 ≤ st.toc.length then tocBlockLines st.toc ++ [[]] else []) ++ st.out, ?_⟩
  have hb : st.bullets.isEmpty = false := by
    simpa [List.isEmpty_iff] using hM
  unfold assembleLines
  by_cases h2' : 2 ≤ st.toc.length <;> by_cases hl : style = "LETTER" <;>
    simp [h2', hb, hl, List.append_assoc]

/-- **C1** witness: the amended summary property evaluated on the
one-item input `"1. First"`. -/
theorem c1_summary_amended_witness :
    c1st.bullets = collectItems (pySplitlines c1ex) ∧
    summaryBlockLines c1st.bullets =
      [[], sumTitleLine, sumUnderLine] ++ (c1st.bullets.take 5).map (fun b => '•' :: ' ' :: b) ∧
    ((c1st.bullets.take 5).map (fun b => '•' :: ' ' :: b)).length = min c1st.bullets.length 5 ∧
    ∃ pre, assembleLines "REPORT" c1st =
      pre ++ summaryBlockLines c1st.bullets ++
        (if ("REPORT" : String) = "LETTER" then [signatureLine] else []) :=
  c1_summary_amended c1ex "REPORT" c1st (by decide) (by decide)

/-! ### The paginator: reconstruction modulo boundary whitespace -/

theorem splitNN_ne_nil (s : PyStr) : splitNN s ≠ [] := by
  cases s with
  | nil => simp [splitNN]
  | cons a t =>
    cases t with
    | nil => simp [splitNN]
    | cons b xs =>
      rw [splitNN]
      by_cases hab : (a = '\n' && b = '\n') = true
      · rw [if_pos hab]
        simp
      · rw [if_neg hab]
        rcases h : splitNN (b :: xs) with _ | ⟨h₀, t₀⟩ <;> simp

theorem joinNN_splitNN : ∀ s : PyStr, joinNN (splitNN s) = s := by
  intro s
  induction s using splitNN.induct with
  | case1 => rfl
  | case2 x => rfl
  | case3 a b xs hab ih =>
    rw [splitNN, if_pos hab]
    rcases hsp : splitNN xs with _ | ⟨h₀, t₀⟩
    · exact absurd hsp (splitNN_ne_nil xs)
    · rw [hsp] at ih
      simp only [Bool.and_eq_true, decide_eq_true_eq] at hab
      obtain ⟨ha, hb⟩ := hab
      subst ha
      subst hb
      rw [joinNN]
      simp [ih]
  | case4 a b xs hab hnil ih => exact absurd hnil (splitNN_ne_nil _)
  | case5 a b xs hab h₀ t₀ hsp ih =>
    rw [splitNN, if_neg hab, hsp]
    rw [hsp] at ih
    cases t₀ with
    | nil =>
      rw [joinNN] at ih ⊢
      rw [ih]
    | cons t₁ ts =>
      rw [joinNN] at ih ⊢
      simp only [List.cons_append]
      rw [ih]

theorem joinTrail_eq (ps : List PyStr) (h : ps ≠ []) :
    joinTrail ps = joinNN ps ++ ['\n', '\n'] := by
  induction ps with
  | nil => exact absurd rfl h
  | cons p ps ih =>
    cases ps with
    | nil => rfl
    | cons q qs =>
      rw [joinTrail, ih (by simp), joinNN]
      simp [List.append_assoc]

theorem sandwich_cons (w c : PyStr) (ws cs : List PyStr) :
    sandwich (w :: ws) (c :: cs) = w ++ c ++ sandwich ws cs := rfl

theorem sandwich_merge (a v : PyStr) (vs cs : List PyStr) (hlen : vs.length = cs.length) :
    sandwich ((a ++ v) :: vs) cs = a ++ sandwich (v :: vs) cs := by
  cases cs with
  | nil =>
    have hvs : vs = [] := List.length_eq_zero.mp hlen
    subst hvs
    rfl
  | cons c cs' =>
    rw [sandwich_cons, sandwich_cons]
    simp [List.append_assoc]

theorem allSpace_nn : allSpace ['\n', '\n'] := by
  intro c hc
  rcases List.mem_cons.mp hc with rfl | hc'
  · rfl
  · rcases List.mem_cons.mp hc' with rfl | hc''
    · rfl
    · exact absurd hc'' (List.not_mem_nil c)

theorem splitLoop_parts : ∀ (paras parts : List PyStr) (cur : PyStr),
    splitLoop paras parts cur = parts ++ splitLoop paras [] cur := by
  intro paras
  induction paras with
  | nil =>
    intro parts cur
    rw [splitLoop, splitLoop]
    by_cases h : strip cur = [] <;> simp [h]
  | cons p ps ih =>
    intro parts cur
    rw [splitLoop, splitLoop]
    by_cases h : cur.length + p.length + 2 ≤ MAX_TG_LEN
    · rw [if_pos h, if_pos h, ih]
    · rw [if_neg h, if_neg h, ih (parts ++ [strip cur]), ih ([] ++ [strip cur])]
      simp [List.append_assoc]

/-- Core invariant of `split_text`: the pending buffer plus the unread
paragraphs (with restored separators) is exactly the produced chunks
interleaved with whitespace fillers. -/
theorem loop_sandwich : ∀ (paras : List PyStr) (cur : PyStr),
    ∃ ws, ws.length = (splitLoop paras [] cur).length + 1 ∧
      (∀ w ∈ ws, allSpace w) ∧
      cur ++ joinTrail paras = sandwich ws (splitLoop paras [] cur) := by
  intro paras
  induction paras with
  | nil =>
    intro cur
    rw [splitLoop]
    by_cases h : strip cur = []
    · rw [if_pos h]
      refine ⟨[cur], by simp, ?_, by simp [joinTrail, sandwich]⟩
      intro w hw
      rcases List.mem_cons.mp hw with rfl | hw'
      · exact allSpace_of_strip_eq_nil h
      · exact absurd hw' (List.not_mem_nil w)
    · rw [if_neg h]
      obtain ⟨w₁, w₂, hw₁, hw₂, hdec⟩ := strip_decomp cur
      refine ⟨[w₁, w₂], by simp, ?_, ?_⟩
      · intro w hw
        rcases List.mem_cons.mp hw with rfl | hw'
        · exact hw₁
        · rcases List.mem_cons.mp hw' with rfl | hw''
          · exact hw₂
          · exact absurd hw'' (List.not_mem_nil w)
      · show cur ++ joinTrail [] = sandwich [w₁, w₂] ([] ++ [strip cur])
        rw [joinTrail]
        show cur ++ [] = sandwich [w₁, w₂] [strip cur]
        rw [sandwich_cons]
        simpa [List.append_assoc] using hdec
  | cons p ps ih =>
    intro cur
    rw [splitLoop]
    by_cases h : cur.length + p.length + 2 ≤ MAX_TG_LEN
    · rw [if_pos h]
      obtain ⟨ws, hlen, hsp, heq⟩ := ih (cur ++ p ++ ['\n', '\n'])
      refine ⟨ws, hlen, hsp, ?_⟩
      rw [joinTrail]
      calc cur ++ (p ++ '\n' :: '\n' :: joinTrail ps)
          = (cur ++ p ++ ['\n', '\n']) ++ joinTrail ps := by simp [List.append_assoc]
        _ = _ := heq
    · rw [if_neg h]
      rw [splitLoop_parts ps ([] ++ [strip cur]) (p ++ ['\n', '\n'])]
      obtain ⟨ws', hlen', hsp', heq'⟩ := ih (p ++ ['\n', '\n'])
      rcases ws' with _ | ⟨v, vs⟩
      · exact absurd hlen' (by simp)
      · obtain ⟨w₁, w₂, hw₁, hw₂, hdec⟩ := strip_decomp cur
        refine ⟨w₁ :: (w₂ ++ v) :: vs, ?_, ?_, ?_⟩
        · simp only [List.length_cons] at hlen' ⊢
          simp [List.length_append]
          omega
        · intro w hw
          rcases List.mem_cons.mp hw with rfl | hw'
          · exact hw₁
          · rcases List.mem_cons.mp hw' with rfl | hw''
            · exact allSpace_append hw₂ (hsp' v (by simp))
            · exact hsp' w (List.mem_cons_of_mem _ hw'')
        · show cur ++ joinTrail (p :: ps) =
            sandwich (w₁ :: (w₂ ++ v) :: vs)
              (([] ++ [strip cur]) ++ splitLoop ps [] (p ++ ['\n', '\n']))
          have hvslen : vs.length = (splitLoop ps [] (p ++ ['\n', '\n'])).length := by
            simp only [List.length_cons] at hlen'
            omega
          rw [show ([] ++ [strip cur]) ++ splitLoop ps [] (p ++ ['\n', '\n']) =
            strip cur :: splitLoop ps [] (p ++ ['\n', '\n']) from rfl]
          rw [sandwich_cons, sandwich_merge w₂ v vs _ hvslen, ← heq']
          rw [joinTrail]
          conv_lhs => rw [hdec]
          simp [List.append_assoc]

theorem strip_last_neg (s : PyStr) :
    strip s = [] ∨ ∃ c, (strip s).getLast? = some c ∧ pySpace c = false := by
  rcases dropWhile_head_or pySpace s.reverse with h | ⟨c, t, h, hc⟩
  · left
    show lstrip (rstrip s) = []
    unfold rstrip
    rw [h]
    rfl
  · have hr : rstrip s = t.reverse ++ [c] := by
      unfold rstrip
      rw [h, List.reverse_cons]
    have hcmem : c ∈ rstrip s := by
      rw [hr]
      simp
    have hne : strip s ≠ [] := by
      show lstrip (rstrip s) ≠ []
      unfold lstrip
      rw [Ne, List.dropWhile_eq_nil_iff]
      intro hall
      have hc' := hall c hcmem
      rw [hc'] at hc
      cases hc
    right
    have hsplit : rstrip s = (rstrip s).takeWhile pySpace ++ strip s :=
      (List.takeWhile_append_dropWhile pySpace (rstrip s)).symm
    have h1 : (rstrip s).getLast? = some c := by
      rw [hr, List.getLast?_concat]
    rw [hsplit, List.getLast?_append] at h1
    rcases hlast : (strip s).getLast? with _ | d
    · rw [List.getLast?_eq_none_iff] at hlast
      exact absurd hlast hne
    · rw [hlast] at h1
      have h2 : some d = some c := h1
      cases h2
      exact ⟨c, rfl, hc⟩

theorem chunkOk_strip (x : PyStr) : chunkOk (strip x) := strip_last_neg x

theorem splitLoop_chunks_chunkOk : ∀ (paras parts : List PyStr) (cur : PyStr),
    (∀ x ∈ parts, chunkOk x) → ∀ c ∈ splitLoop paras parts cur, chunkOk c := by
  intro paras
  induction paras with
  | nil =>
    intro parts cur hp c hc
    rw [splitLoop] at hc
    by_cases h : strip cur = []
    · rw [if_pos h] at hc
      exact hp c hc
    · rw [if_neg h] at hc
      rcases List.mem_append.mp hc with h' | h'
      · exact hp c h'
      · simp at h'
        subst h'
        exact chunkOk_strip cur
  | cons p ps ih =>
    intro parts cur hp c hc
    rw [splitLoop] at hc
    by_cases h : cur.length + p.length + 2 ≤ MAX_TG_LEN
    · rw [if_pos h] at hc
      exact ih parts _ hp c hc
    · rw [if_neg h] at hc
      refine ih _ _ ?_ c hc
      intro x hx
      rcases List.mem_append.mp hx with h' | h'
      · exact hp x h'
      · simp at h'
        subst h'
        exact chunkOk_strip cur

theorem mem_sandwich_of_mem_chunk : ∀ (cs ws : List PyStr), ws.length = cs.length + 1 →
    ∀ c ∈ cs, ∀ ch ∈ c, ch ∈ sandwich ws cs := by
  intro cs
  induction cs with
  | nil =>
    intro ws _ c hc
    exact absurd hc (List.not_mem_nil c)
  | cons c₀ cs' ih =>
    intro ws hlen c hc ch hch
    rcases ws with _ | ⟨w, ws'⟩
    · exact absurd hlen (by simp)
    · rw [sandwich_cons]
      rcases List.mem_cons.mp hc with rfl | hc'
      · simp [hch]
      · have hmem := ih ws' (by simpa using hlen) c hc' ch hch
        simp [hmem]

theorem sandwich_all_nil : ∀ (cs ws : List PyStr),
    (∀ w ∈ ws, w = []) → (∀ c ∈ cs, c = []) → sandwich ws cs = [] := by
  intro cs
  induction cs with
  | nil =>
    intro ws hw _
    cases ws with
    | nil => rfl
    | cons w ws' =>
      cases ws' with
      | nil =>
        rw [show sandwich [w] [] = w from rfl]
        exact hw w (by simp)
      | cons u us => rfl
  | cons c cs' ih =>
    intro ws hw hc
    cases ws with
    | nil => rfl
    | cons w ws' =>
      rw [sandwich_cons, hw w (by simp), hc c (by simp),
        ih ws' (fun x hx => hw x (by simp [hx])) (fun x hx => hc x (by simp [hx]))]
      rfl

/-- Removing an all-whitespace suffix of a sandwich of trimmed chunks
leaves a sandwich of the same chunks (with adjusted fillers). -/
theorem sandwich_peel : ∀ (cs ws : List PyStr) (s t : PyStr),
    ws.length = cs.length + 1 → (∀ w ∈ ws, allSpace w) → (∀ c ∈ cs, chunkOk c) →
    allSpace t → s ++ t = sandwich ws cs →
    ∃ ws', ws'.length = cs.length + 1 ∧ (∀ w ∈ ws', allSpace w) ∧ s = sandwich ws' cs := by
  intro cs
  induction cs with
  | nil =>
    intro ws s t hlen hws _ ht heq
    rcases ws with _ | ⟨w, ws'⟩
    · exact absurd hlen (by simp)
    · have hws0 : ws' = [] := by simpa using hlen
      subst hws0
      refine ⟨[s], by simp, ?_, rfl⟩
      intro x hx
      have hx' : x = s := by simpa using hx
      intro ch hch
      have hchs : ch ∈ s := hx' ▸ hch
      refine hws w (by simp) ch ?_
      have hmem : ch ∈ s ++ t := List.mem_append_left t hchs
      rwa [heq] at hmem
  | cons c₀ cs' ih =>
    intro ws s t hlen hws hcs ht heq
    rcases ws with _ | ⟨w₀, ws₁⟩
    · exact absurd hlen (by simp)
    · rw [sandwich_cons] at heq
      by_cases hc₀ : c₀ = []
      · subst hc₀
        rcases ws₁ with _ | ⟨v, vs⟩
        · exact absurd hlen (by simp)
        · have hvs : vs.length = cs'.length := by simpa using hlen
          have heq2 : s ++ t = sandwich ((w₀ ++ v) :: vs) cs' := by
            rw [sandwich_merge w₀ v vs cs' hvs]
            simpa using heq
          obtain ⟨ws3, hlen3, hsp3, heq3⟩ := ih ((w₀ ++ v) :: vs) s t
            (by simp [hvs])
            (by
              intro x hx
              rcases List.mem_cons.mp hx with rfl | hx'
              · exact allSpace_append (hws w₀ (by simp)) (hws v (by simp))
              · exact hws x (List.mem_cons_of_mem _ (List.mem_cons_of_mem _ hx')))
            (fun c hc => hcs c (List.mem_cons_of_mem _ hc)) ht heq2
          rcases ws3 with _ | ⟨u₀, us⟩
          · exact absurd hlen3 (by simp)
          · refine ⟨[] :: u₀ :: us, by simpa using hlen3, ?_, ?_⟩
            · intro x hx
              rcases List.mem_cons.mp hx with rfl | hx'
              · intro ch hch
                exact absurd hch (List.not_mem_nil ch)
              · exact hsp3 x hx'
            · rw [sandwich_cons]
              simpa using heq3
      · have heq' : s ++ t = (w₀ ++ c₀) ++ sandwich ws₁ cs' := heq
        rcases List.append_eq_append_iff.mp heq' with ⟨a', ha1, ha2⟩ | ⟨c', hc1, hc2⟩
        · rcases a' with _ | ⟨x, a''⟩
          · have hS : allSpace (sandwich ws₁ cs') := by
              intro ch hch
              refine ht ch ?_
              rw [ha2]
              simpa using hch
            have hlen₁ : ws₁.length = cs'.length + 1 := by simpa using hlen
            have hcs'nil : ∀ c ∈ cs', c = [] := by
              intro c hc
              rcases hcs c (List.mem_cons_of_mem _ hc) with h' | ⟨ch, hch, hchsp⟩
              · exact h'
              · exfalso
                have hchmem : ch ∈ c := List.mem_of_mem_getLast? hch
                have hmem := mem_sandwich_of_mem_chunk cs' ws₁ hlen₁ c hc ch hchmem
                have hsp := hS ch hmem
                rw [hsp] at hchsp
                cases hchsp
            have hwnil : ∀ w ∈ List.replicate cs'.length ([] : PyStr) ++ [[]], w = [] := by
              intro y hy
              rcases List.mem_append.mp hy with h' | h'
              · exact List.eq_of_mem_replicate h'
              · simpa using h'
            have hs : s = w₀ ++ c₀ := by simpa using ha1.symm
            refine ⟨w₀ :: (List.replicate cs'.length [] ++ [[]]), by simp, ?_, ?_⟩
            · intro y hy
              rcases List.mem_cons.mp hy with h' | h'
              · rw [h']
                exact hws w₀ (by simp)
              · rw [hwnil y h']
                intro ch hch
                exact absurd hch (List.not_mem_nil ch)
            · rw [sandwich_cons, sandwich_all_nil cs' _ hwnil hcs'nil, hs]
              simp
          · exfalso
            rcases hcs c₀ (by simp) with h' | ⟨ch, hch, hchsp⟩
            · exact hc₀ h'
            · have h1 : (w₀ ++ c₀).getLast? = some ch := by
                rw [List.getLast?_append, hch]
                rfl
              rw [ha1] at h1
              rw [List.getLast?_append] at h1
              rcases hy : (x :: a'').getLast? with _ | y
              · rw [List.getLast?_eq_none_iff] at hy
                cases hy
              · rw [hy] at h1
                have h2 : some y = some ch := h1
                cases h2
                have hymem : ch ∈ x :: a'' := List.mem_of_mem_getLast? hy
                have hyt : ch ∈ t := by
                  rw [ha2]
                  exact List.mem_append_left _ hymem
                have hspy := ht ch hyt
                rw [hspy] at hchsp
                cases hchsp
        · have hlen₁ : ws₁.length = cs'.length + 1 := by simpa using hlen
          obtain ⟨ws3, hlen3, hsp3, heq3⟩ := ih ws₁ c' t hlen₁
            (fun w hw => hws w (List.mem_cons_of_mem _ hw))
            (fun c hc => hcs c (List.mem_cons_of_mem _ hc)) ht hc2.symm
          refine ⟨w₀ :: ws3, by simp [hlen3], ?_, ?_⟩
          · intro y hy
            rcases List.mem_cons.mp hy with h' | h'
            · rw [h']
              exact hws w₀ (by simp)
            · exact hsp3 y h'
          · rw [sandwich_cons, ← heq3, hc1]

/-- **C5** (confirmed).  The original text is exactly the chunks of
`split_text` in order, interleaved with whitespace-only fillers (which
carry the removed paragraph separators and the whitespace trimmed at
chunk boundaries): concatenating the chunks with the separators
re-inserted reconstructs the text up to whitespace at chunk
boundaries. -/
theorem c5_reconstruction (text : PyStr) :
    ∃ ws, ws.length = (split_text text).length + 1 ∧
      (∀ w ∈ ws, allSpace w) ∧ text = sandwich ws (split_text text) := by
  obtain ⟨ws, hlen, hsp, heq⟩ := loop_sandwich (splitNN text) []
  have htext : text ++ ['\n', '\n'] = sandwich ws (split_text text) := by
    have h1 : joinTrail (splitNN text) = text ++ ['\n', '\n'] := by
      rw [joinTrail_eq _ (splitNN_ne_nil text), joinNN_splitNN]
    calc text ++ ['\n', '\n'] = [] ++ joinTrail (splitNN text) := by simp [h1]
      _ = sandwich ws (splitLoop (splitNN text) [] []) := heq
  have hco : ∀ c ∈ split_text text, chunkOk c :=
    splitLoop_chunks_chunkOk (splitNN text) [] []
      (fun x hx => absurd hx (List.not_mem_nil x))
  exact sandwich_peel (split_text text) ws text ['\n', '\n'] hlen hsp hco allSpace_nn htext

/-! ### Chunk length bounds -/

theorem splitNN_head_decomp : ∀ (t h : PyStr) (rest : List PyStr),
    splitNN t = h :: rest → ∃ u, t = h ++ u := by
  intro t
  induction t using splitNN.induct with
  | case1 =>
    intro h rest heq
    cases heq
    exact ⟨[], rfl⟩
  | case2 x =>
    intro h rest heq
    cases heq
    exact ⟨[], rfl⟩
  | case3 a b xs hab ih =>
    intro h rest heq
    rw [splitNN, if_pos hab] at heq
    cases heq
    exact ⟨a :: b :: xs, rfl⟩
  | case4 a b xs hab hnil ih => exact absurd hnil (splitNN_ne_nil _)
  | case5 a b xs hab h₀ t₀ hsp ih =>
    intro h rest heq
    rw [splitNN, if_neg hab, hsp] at heq
    cases heq
    obtain ⟨u, hu⟩ := ih h₀ t₀ hsp
    refine ⟨u, ?_⟩
    rw [List.cons_append, ← hu]

theorem splitNN_parts_no_NN : ∀ (t : PyStr), ∀ p ∈ splitNN t, hasNN p = false := by
  intro t
  induction t using splitNN.induct with
  | case1 =>
    intro p hp
    have hp' : p = [] := by simpa [splitNN] using hp
    rw [hp']
    rfl
  | case2 x =>
    intro p hp
    have hp' : p = [x] := by simpa [splitNN] using hp
    rw [hp']
    rfl
  | case3 a b xs hab ih =>
    intro p hp
    rw [splitNN, if_pos hab] at hp
    rcases List.mem_cons.mp hp with h' | h'
    · rw [h']
      rfl
    · exact ih p h'
  | case4 a b xs hab hnil ih => exact absurd hnil (splitNN_ne_nil _)
  | case5 a b xs hab h₀ t₀ hsp ih =>
    intro p hp
    rw [splitNN, if_neg hab, hsp] at hp
    rcases List.mem_cons.mp hp with h' | h'
    · rw [h']
      have hh₀ : hasNN h₀ = false := ih h₀ (by rw [hsp]; simp)
      cases h₀ with
      | nil => rfl
      | cons c r =>
        obtain ⟨u, hu⟩ := splitNN_head_decomp (b :: xs) (c :: r) t₀ hsp
        have hbc : b = c := by
          have hh := congrArg List.head? hu
          simpa using hh
        subst hbc
        rw [hasNN, hh₀]
        simp only [Bool.or_false]
        rcases hcond : (decide (a = '\n') && decide (b = '\n')) with _ | _
        · rfl
        · exact absurd hcond hab
    · exact ih p (by rw [hsp]; exact List.mem_cons_of_mem _ h')
  
theorem hasNN_cons_false {a : Char} {z : PyStr} (h : hasNN (a :: z) = false) :
    hasNN z = false := by
  cases z with
  | nil => rfl
  | cons b r =>
    rw [hasNN] at h
    simp only [Bool.or_eq_false_iff] at h
    exact h.2

theorem hasNN_append_right_false : ∀ {x y : PyStr}, hasNN (x ++ y) = false →
    hasNN x = false := by
  intro x
  induction x with
  | nil => intro y _; rfl
  | cons a x' ih =>
    intro y h
    cases x' with
    | nil => rfl
    | cons b r =>
      rw [List.cons_append, List.cons_append, hasNN] at h
      rw [hasNN]
      simp only [Bool.or_eq_false_iff] at h ⊢
      refine ⟨h.1, ?_⟩
      exact ih (y := y) (by rw [List.cons_append]; exact h.2)

theorem hasNN_append_left_false : ∀ {x y : PyStr}, hasNN (x ++ y) = false →
    hasNN y = false := by
  intro x
  induction x with
  | nil => intro y h; exact h
  | cons a x' ih =>
    intro y h
    rw [List.cons_append] at h
    exact ih (hasNN_cons_false h)

theorem strip_no_NN {s : PyStr} (h : hasNN s = false) : hasNN (strip s) = false := by
  obtain ⟨w₁, w₂, _, _, hdec⟩ := strip_decomp s
  rw [hdec, List.append_assoc] at h
  exact hasNN_append_right_false (hasNN_append_left_false h)

/-- Length invariant of the paginator loop: every produced chunk either
fits the limit or is the `strip` of one single source paragraph. -/
theorem splitLoop_bound (P : List PyStr) : ∀ (paras parts : List PyStr) (cur : PyStr),
    (∀ p ∈ paras, p ∈ P) →
    (∀ x ∈ parts, x.length ≤ MAX_TG_LEN ∨ ∃ p ∈ P, x = strip p) →
    (cur.length ≤ MAX_TG_LEN ∨ ∃ p ∈ P, cur = p ++ ['\n', '\n']) →
    ∀ c ∈ splitLoop paras parts cur,
      c.length ≤ MAX_TG_LEN ∨ ∃ p ∈ P, c = strip p := by
  intro paras
  induction paras with
  | nil =>
    intro parts cur hsub hp hcur c hc
    rw [splitLoop] at hc
    by_cases h : strip cur = []
    · rw [if_pos h] at hc
      exact hp c hc
    · rw [if_neg h] at hc
      rcases List.mem_append.mp hc with h' | h'
      · exact hp c h'
      · simp at h'
        subst h'
        rcases hcur with hlen | ⟨p, hpP, hcureq⟩
        · exact Or.inl (le_trans (strip_length_le cur) hlen)
        · exact Or.inr ⟨p, hpP, by rw [hcureq, strip_append_allSpace _ allSpace_nn]⟩
  | cons p ps ih =>
    intro parts cur hsub hp hcur c hc
    rw [splitLoop] at hc
    by_cases h : cur.length + p.length + 2 ≤ MAX_TG_LEN
    · rw [if_pos h] at hc
      refine ih parts _ (fun q hq => hsub q (by simp [hq])) hp ?_ c hc
      refine Or.inl ?_
      simp only [List.length_append, List.length_cons, List.length_nil]
      omega
    · rw [if_neg h] at hc
      refine ih _ _ (fun q hq => hsub q (by simp [hq])) ?_ ?_ c hc
      · intro x hx
        rcases List.mem_append.mp hx with h' | h'
        · exact hp x h'
        · simp at h'
          subst h'
          rcases hcur with hlen | ⟨q, hqP, hcureq⟩
          · exact Or.inl (le_trans (strip_length_le cur) hlen)
          · exact Or.inr ⟨q, hqP, by rw [hcureq, strip_append_allSpace _ allSpace_nn]⟩
      · exact Or.inr ⟨p, hsub p (by simp), rfl⟩

/-- **C6** (confirmed).  Every chunk of `split_text` is no longer than
`max(limit, largest paragraph inside the chunk)`; a chunk exceeding the
limit is a single paragraph (contains no `"\n\n"`), namely the `strip`
of one source paragraph, never split further. -/
theorem c6_chunk_bound (text : PyStr) (c : PyStr) (hc : c ∈ split_text text) :
    c.length ≤ max MAX_TG_LEN (pyMax ((splitNN c).map List.length)) ∧
    (MAX_TG_LEN < c.length → hasNN c = false ∧ splitNN c = [c] ∧
      ∃ p ∈ splitNN text, c = strip p) := by
  have hQ := splitLoop_bound (splitNN text) (splitNN text) [] []
    (fun p hp => hp) (fun x hx => absurd hx (List.not_mem_nil x))
    (Or.inl (by simp)) c hc
  rcases hQ with hlen | ⟨p, hpP, hceq⟩
  · refine ⟨le_trans hlen (le_max_left _ _), ?_⟩
    intro hgt
    omega
  · have hno : hasNN c = false := by
      rw [hceq]
      exact strip_no_NN (splitNN_parts_no_NN text p hpP)
    have hsingle : splitNN c = [c] := splitNN_single hno
    refine ⟨?_, fun _ => ⟨hno, hsingle, p, hpP, hceq⟩⟩
    have hmax : pyMax ((splitNN c).map List.length) = c.length := by
      rw [hsingle]
      simp [pyMax]
    rw [hmax]
    exact le_max_right _ _

/-- **C6** witness: the bound evaluated on the two-paragraph input
`"hello\n\nworld"`, which `split_text` returns as one chunk. -/
theorem c6_chunk_bound_witness :
    ("hello\n\nworld".toList).length ≤
      max MAX_TG_LEN (pyMax ((splitNN "hello\n\nworld".toList).map List.length)) ∧
    (MAX_TG_LEN < ("hello\n\nworld".toList).length →
      hasNN "hello\n\nworld".toList = false ∧
      splitNN "hello\n\nworld".toList = ["hello\n\nworld".toList] ∧
      ∃ p ∈ splitNN "hello\n\nworld".toList, "hello\n\nworld".toList = strip p) :=
  c6_chunk_bound ("hello\n\nworld".toList) ("hello\n\nworld".toList) (by decide)

/-! ### LETTER style: wrapping around the REPORT body -/

theorem assembleLines_letter (st : FmtState) :
    assembleLines "LETTER" st = greetingLine :: assembleLines "REPORT" st ++ [signatureLine] := by
  unfold assembleLines
  simp

theorem joinNL_cons_of_ne {x : PyStr} {rest : List PyStr} (h : rest ≠ []) :
    joinNL (x :: rest) = x ++ '\n' :: joinNL rest := by
  cases rest with
  | nil => exact absurd rfl h
  | cons r rs => rfl

theorem joinNL_append_single {body : List PyStr} (x : PyStr) (h : body ≠ []) :
    joinNL (body ++ [x]) = joinNL body ++ '\n' :: x := by
  induction body with
  | nil => exact absurd rfl h
  | cons b bs ih =>
    cases bs with
    | nil => rfl
    | cons b' bs' =>
      rw [List.cons_append, joinNL_cons_of_ne (by simp), ih (by simp), joinNL]
      simp [List.append_assoc]

/-- A string that starts and ends with non-whitespace characters is
unchanged by `strip`. -/
theorem strip_of_bounds {s : PyStr} {a b : Char} (hhead : s.head? = some a)
    (hlast : s.getLast? = some b) (ha : pySpace a = false) (hb : pySpace b = false) :
    strip s = s := by
  have hr : rstrip s = s := by
    unfold rstrip
    rcases hrev : s.reverse with _ | ⟨c, u⟩
    · have hnil : s = [] := by simpa using congrArg List.reverse hrev
      rw [hnil] at hlast
      cases hlast
    · have hcb : c = b := by
        have h1 := List.head?_reverse s
        rw [hrev, hlast] at h1
        simpa using h1
      subst hcb
      rw [List.dropWhile_cons, if_neg (by simp [hb]), ← hrev, List.reverse_reverse]
  show lstrip (rstrip s) = s
  rw [hr]
  rcases hs2 : s with _ | ⟨c, v⟩
  · rfl
  · subst hs2
    have hca : c = a := by simpa using hhead
    subst hca
    show List.dropWhile pySpace (c :: v) = c :: v
    rw [List.dropWhile_cons, if_neg (by simp [ha])]

/-- The LETTER wrapper never gets trimmed: it starts with `'У'` and
ends with `','`. -/
theorem letter_strip (m : PyStr) :
    strip (greetingLine ++ m ++ signatureLine) = greetingLine ++ m ++ signatureLine := by
  refine strip_of_bounds (a := 'У') (b := ',') rfl ?_ (by decide) (by decide)
  rw [List.getLast?_append]
  rfl

/-- **C7** (counterexample).  There is *no* fixed greeting/signature
pair whose removal always turns the LETTER output into the REPORT
output: the inputs `"x"` and `""` force incompatible pair lengths,
because the REPORT output is stripped while the LETTER body is not. -/
theorem c7_counterexample :
    ¬ ∃ G S : PyStr, ∀ (t r l : PyStr),
        smart_format t "REPORT" = some r → smart_format t "LETTER" = some l →
        l = G ++ r ++ S := by
  rintro ⟨G, S, h⟩
  have h1 := h ("x".toList) ("x".toList)
    ("Уважаемые коллеги,\n\nx\n\nС уважением,".toList) (by decide) (by decide)
  have h2 := h ([]) ([]) ("Уважаемые коллеги,\n\n\nС уважением,".toList) (by decide) (by decide)
  have e1 := congrArg List.length h1
  have e2 := congrArg List.length h2
  simp [List.length_append] at e1 e2
  omega

/-- **C7** (amended).  The LETTER output is the REPORT output wrapped
by the fixed greeting line and signature line *up to whitespace*: some
whitespace-only fillers separate the wrapper from the (trimmed) REPORT
body, because the LETTER style joins the untrimmed body.  Internal
rendering is unchanged (the same body lines are joined). -/
theorem c7_letter_wrap_amended (text : PyStr) (r : PyStr)
    (h : smart_format text "REPORT" = some r) :
    ∃ w1 w2, allSpace w1 ∧ allSpace w2 ∧
      smart_format text "LETTER" = some (greetingLine ++ w1 ++ r ++ w2 ++ signatureLine) := by
  unfold smart_format at h ⊢
  rcases hscan : scanLines (pySplitlines text) initState with _ | st
  · rw [hscan] at h
    simp at h
  · rw [hscan] at h
    simp only [Option.map_some'] at h ⊢
    have hr : strip (joinNL (assembleLines "REPORT" st)) = r := Option.some.inj h
    rw [assembleLines_letter]
    rcases hbody : assembleLines "REPORT" st with _ | ⟨b, bs⟩
    · rw [hbody] at hr
      have hr0 : [] = r := hr
      refine ⟨['\n'], [], ?_, ?_, ?_⟩
      · intro c hc
        have hc' : c = '\n' := by simpa using hc
        rw [hc']
        rfl
      · intro c hc
        exact absurd hc (List.not_mem_nil c)
      · rw [← hr0]
        have hj : joinNL (greetingLine :: ([] : List PyStr) ++ [signatureLine]) =
            greetingLine ++ ['\n'] ++ signatureLine := rfl
        rw [hj]
        rw [show greetingLine ++ ['\n'] ++ signatureLine =
          greetingLine ++ (['\n'] ++ [] ++ []) ++ signatureLine by simp]
        rw [letter_strip]
        simp
    · have hne : assembleLines "REPORT" st ≠ [] := by rw [hbody]; simp
      rw [← hbody] at *
      obtain ⟨w1', w2', hw1', hw2', hdec⟩ := strip_decomp (joinNL (assembleLines "REPORT" st))
      rw [hr] at hdec
      refine ⟨'\n' :: w1', w2' ++ ['\n'], ?_, ?_, ?_⟩
      · intro c hc
        rcases List.mem_cons.mp hc with h' | h'
        · rw [h']
          rfl
        · exact hw1' c h'
      · intro c hc
        rcases List.mem_append.mp hc with h' | h'
        · exact hw2' c h'
        · have h'' : c = '\n' := by simpa using h'
          rw [h'']
          rfl
      · rw [List.cons_append, joinNL_cons_of_ne
            (show assembleLines "REPORT" st ++ [signatureLine] ≠ [] by simp),
          joinNL_append_single _ hne]
        rw [show greetingLine ++ '\n' :: (joinNL (assembleLines "REPORT" st) ++ '\n' :: signatureLine) =
          greetingLine ++ ('\n' :: joinNL (assembleLines "REPORT" st) ++ ['\n']) ++ signatureLine by
            simp [List.append_assoc]]
        rw [letter_strip]
        rw [hdec]
        simp [List.append_assoc]

/-- **C7** witness: the amended wrap evaluated on the input `"x"`. -/
theorem c7_letter_wrap_amended_witness :
    ∃ w1 w2, allSpace w1 ∧ allSpace w2 ∧
      smart_format c7ex "LETTER" =
        some (greetingLine ++ w1 ++ "x".toList ++ w2 ++ signatureLine) :=
  c7_letter_wrap_amended c7ex ("x".toList) (by decide)
